import Mathlib

/-!
Verification development for the bucketed unitig-compaction pipeline.

The Rust sources embedded here (shallowly, as executable Lean functions) are:
  - src/src/pipeline/links_compaction.rs  (LinkMapping codec, Pipeline::links_compaction)
  - src/src/pipeline/hashes_sorting.rs    (Pipeline::hashes_sorting, per hash group)
  - src/src/pipeline.rs                   (MINIMIZER_THRESHOLD_VALUE, compute_chosen_bucket)
  - src/src/bloom_filter.rs               (BloomFilter::increment_cell)
  - src/src/colors/colors_memmap.rs       (ColorsMemMap::get_id)

Machine integers are modelled as Nat: every operation performed by the embedded
code (varint shifts, modulo, byte extraction) stays well below the u64 / usize
range on the inputs the code feeds it, so no wrap-around modelling is required;
where a constant is produced by f64 arithmetic its exactly evaluated value is
embedded and documented.

Helper crates of the repository that are not part of the provided sources
(varint.rs, unitig_link.rs, vec_slice.rs, fast_rand_bool.rs) are modelled from
the specification; each such definition carries a doc comment starting with
"Modelled from the spec". In particular:
  - VecSlice values (slices into a shared growable vector) are modelled directly
    as Lean lists: the code only ever builds a slice and later reads exactly the
    elements written, so a list captures its observable content.
  - The fair coin (FastRandBool::get_randbool) is an explicit Bool parameter:
    each group processed consumes at most one flip, lazily, exactly as the
    short-circuiting Rust conditions do.
-/

/-! ## Varint codec (claim C8)

Modelled from the spec, section 6.2: unsigned LEB128, 7 data bits per byte,
most significant bit of a byte set = continuation. The repository file
varint.rs is not among the provided sources; its callers in
links_compaction.rs are.
-/

/-- Modelled from the spec: LEB128 encoder (varint.rs is absent from the
provided sources). Produces the little-endian base-128 byte list of a value,
continuation bit (128) set on every byte except the last. -/
def encode_varint (n : Nat) : List Nat :=
  if h : n < 128 then [n]
  else (n % 128 + 128) :: encode_varint (n / 128)
decreasing_by exact Nat.div_lt_self (by omega) (by omega)

/-- Modelled from the spec: LEB128 decoder over a byte list; returns the decoded
value and the remaining stream, or none when the stream ends inside a value. -/
def decode_varint : List Nat → Option (Nat × List Nat)
  | [] => none
  | b :: rest =>
    if b < 128 then some (b, rest)
    else
      match decode_varint rest with
      | none => none
      | some (v, rem) => some (b % 128 + 128 * v, rem)

/-- LinkMapping record from links_compaction.rs: a redirection entry telling
which final bucket claims a partial unitig sequence. -/
structure LinkMapping where
  bucket : Nat
  entry : Nat
deriving DecidableEq, Repr

/-- LinkMapping::write_to from links_compaction.rs: varint-encode the bucket
field, then the entry field. -/
def LinkMapping.write_to (m : LinkMapping) : List Nat :=
  encode_varint m.bucket ++ encode_varint m.entry

/-- LinkMapping::from_stream from links_compaction.rs: decode bucket then entry,
propagating stream exhaustion as none; the unread rest of the stream is
returned alongside, matching the reader cursor position. -/
def LinkMapping.from_stream (s : List Nat) : Option (LinkMapping × List Nat) :=
  match decode_varint s with
  | none => none
  | some (bucket, s1) =>
    match decode_varint s1 with
    | none => none
    | some (entry, s2) => some (⟨bucket, entry⟩, s2)

/-! ## Bloom filter (claim C9), from src/src/bloom_filter.rs -/

/-- BloomFilter from bloom_filter.rs: a byte vector of cells plus an unused
rolling counter field. -/
structure BloomFilter where
  map : List Nat
  rolling : Nat
deriving DecidableEq, Repr

/-- BloomFilter::new from bloom_filter.rs: size zero-initialised cells. -/
def BloomFilter.new (size : Nat) : BloomFilter :=
  ⟨List.replicate size 0, 0⟩

/-- BloomFilter::increment_cell from bloom_filter.rs: reads whether the byte at
cell equals 1, then stores 1 there, returning the old comparison. Rust panics
when cell is out of bounds; the claims only concern in-bounds cells, where getD
and set coincide with the panicking index operations. -/
def BloomFilter.increment_cell (b : BloomFilter) (cell : Nat) : Bool × BloomFilter :=
  ((b.map.getD cell 0) == 1, ⟨b.map.set cell 1, b.rolling⟩)

/-- Folds a sequence of increment_cell calls over a filter, keeping only the
final state (the history of returned Bools is recovered pointwise in the
theorems). -/
def BloomFilter.runCalls (b : BloomFilter) : List Nat → BloomFilter
  | [] => b
  | c :: cs => BloomFilter.runCalls (b.increment_cell c).2 cs

/-! ## Color map (claim C10), from src/src/colors/colors_memmap.rs -/

/-- ColorsMemMap from colors_memmap.rs. The DashMap keyed by the 128-bit
SipHash of the color slice is modelled as an association list from hash keys to
color ids; the color storage backend (out of scope per the spec, exposing only
serialize_colors) is an abstract state of type sigma, and serializeCalls counts
how many times serialize_colors has been invoked. The SipHash itself is an
external collaborator and enters only through the abstract hash function below. -/
structure ColorsMemMap (σ : Type) where
  colors : List (Nat × Nat)
  storage : σ
  serializeCalls : Nat

/-- Association-list lookup standing for DashMap::get keyed by the hash. -/
def lookupAssoc : List (Nat × Nat) → Nat → Option Nat
  | [], _ => none
  | (k, v) :: t, key => if k = key then some v else lookupAssoc t key

/-- ColorsMemMap::get_id from colors_memmap.rs: hash the color slice, return
the cached id when present, otherwise call serialize_colors on the backing
storage, cache the fresh id under the hash and return it. hashColors abstracts
hash_colors (keyed SipHash13 of the slice) and serializeColors abstracts the
out-of-scope storage backend. -/
def ColorsMemMap.get_id {σ : Type} (hashColors : List Nat → Nat)
    (serializeColors : σ → List Nat → Nat × σ)
    (m : ColorsMemMap σ) (colors : List Nat) : Nat × ColorsMemMap σ :=
  let hash := hashColors colors
  match lookupAssoc m.colors hash with
  | none =>
    let cs := serializeColors m.storage colors
    (cs.1, ⟨(hash, cs.1) :: m.colors, cs.2, m.serializeCalls + 1⟩)
  | some id => (id, m)

/-! ## Minimizer bucket choice (claim C2), from src/src/pipeline.rs -/

/-- MINIMIZER_THRESHOLD_VALUE from pipeline.rs. The source computes
(u64 MAX as f64 * 1.0 / 100.0) as u64 at compile time in IEEE-754 double
arithmetic: u64 MAX rounds to 2 to the 64th, the quotient
184467440737095516.16 rounds to the nearest representable double
184467440737095520 (0x1.47ae147ae147bp57), and the cast truncates to exactly
that integer. The exactly evaluated value is embedded here. Note that it is
NOT floor(u64 MAX / 100) = 184467440737095516. -/
def MINIMIZER_THRESHOLD_VALUE : Nat := 184467440737095520

/-- Strict lexicographic min step on (value, position) pairs; keeps the earlier
element on ties, matching Iterator::min which returns the first minimum. -/
def pairMin (a b : Nat × Nat) : Nat × Nat :=
  if b.1 < a.1 ∨ (b.1 = a.1 ∧ b.2 < a.2) then b else a

/-- Iterator::min over a list of (value, position) pairs under lexicographic
order; none on the empty list. -/
def listMinPair : List (Nat × Nat) → Option (Nat × Nat)
  | [] => none
  | x :: xs => some (xs.foldl pairMin x)

/-- Pipeline::compute_chosen_bucket from pipeline.rs. The rolling nt-hash
iterator is an external collaborator (out of scope per the spec); its
enumerated output is taken as the input list windowHashes of
(hash value, window position) pairs, exactly what iter_enumerate yields.
The code filters the pairs with hash below MINIMIZER_THRESHOLD_VALUE, maps
each to (hash mod nbuckets, position) and takes the minimum of the MAPPED
pairs; the returned pair is (chosen bucket, position of the chosen window),
the position standing for the k-mer slice the source returns. -/
def compute_chosen_bucket (windowHashes : List (Nat × Nat)) (nbuckets : Nat) :
    Option (Nat × Nat) :=
  listMinPair ((windowHashes.filter
      (fun v => v.1 < MINIMIZER_THRESHOLD_VALUE)).map
    (fun b => (b.1 % nbuckets, b.2)))

/-! ## Unitig link data model (claims C1, C3, C4, C5, C6, C7)

unitig_link.rs is not among the provided sources; UnitigIndex, UnitigFlags and
UnitigLink are modelled from the data-model section of the spec, with the
seal-bit behaviour of combine and reversed pinned down by the assertions the
provided links_compaction.rs makes about them.
-/

/-- Modelled from the spec: UnitigIndex, a (bucket, index) pointer to a
sequence record inside a numbered bucket. -/
structure UnitigIndex where
  bucket : Nat
  index : Nat
deriving DecidableEq, Repr

/-- Modelled from the spec: the flag triple of a UnitigLink. -/
structure UnitigFlags where
  is_forward : Bool
  begin_sealed : Bool
  end_sealed : Bool
deriving DecidableEq, Repr

/-- Modelled from the spec: flags of an empty placeholder link. -/
def UnitigFlags.new_empty : UnitigFlags := ⟨false, false, false⟩

/-- Modelled from the spec: fresh flags carrying only a direction, used by
hashes_sorting for the initial links; no end is sealed yet. -/
def UnitigFlags.new_direction (forward : Bool) : UnitigFlags := ⟨forward, false, false⟩

/-- Modelled from the spec: UnitigFlags::combine, result sealed on an end iff
the contributing side was. links_compaction.rs asserts that the combined end
seal equals the end seal of the first argument and (after orientation) that
the begin seal equals the end seal of the backward side, which fixes the two
seal bits as below; the direction bit is carried from the first argument (the
claims constrain only the seal bits). -/
def UnitigFlags.combine (a b : UnitigFlags) : UnitigFlags :=
  ⟨a.is_forward, b.end_sealed, a.end_sealed⟩

/-- Modelled from the spec: orientation reversal flips the direction bit and
swaps the two seal bits, as pinned down by the assertions in
links_compaction.rs around the swapped case. -/
def UnitigFlags.reversed (f : UnitigFlags) : UnitigFlags :=
  ⟨!f.is_forward, f.end_sealed, f.begin_sealed⟩

/-- Modelled from the spec: seal the begin end of a link. -/
def UnitigFlags.seal_beginning (f : UnitigFlags) : UnitigFlags :=
  ⟨f.is_forward, true, f.end_sealed⟩

/-- Modelled from the spec: UnitigLink record; the VecSlice of entries is
modelled as the list of its elements. -/
structure UnitigLink where
  entry : Nat
  flags : UnitigFlags
  entries : List UnitigIndex
deriving DecidableEq, Repr

/-- Direction tag of a HashEntry, from hash_entry.rs via its use in
hashes_sorting.rs. -/
inductive Direction where
  | Forward : Direction
  | Backward : Direction
deriving DecidableEq, Repr

/-- HashEntry from the data model: one oriented extension of a k-mer crossing
a bucket boundary. -/
structure HashEntry where
  hash : Nat
  bucket : Nat
  entry : Nat
  direction : Direction
deriving DecidableEq, Repr

/-! ## Hash sorting per group (claim C3), from src/src/pipeline/hashes_sorting.rs -/

/-- The body of the group loop of Pipeline::hashes_sorting for one maximal
group x of HashEntries with equal hash (the radix sort makes equal hashes
consecutive, so group_by yields exactly the maximal equal-hash groups): only
a group of exactly 2 entries with opposite directions emits anything; the coin
(FastRandBool::get_randbool, consumed lazily) decides which side carries the
one-element payload naming its partner, and each link is routed to the bucket
of its own endpoint with the direction flag of that endpoint. Returns the
emitted (destination bucket, link) pairs in emission order. -/
def processHashGroup (coin : Bool) (x : List HashEntry) : List (Nat × UnitigLink) :=
  match x with
  | [a, b] =>
    if a.direction ≠ b.direction then
      let fw := match a.direction with
        | Direction.Forward => a
        | Direction.Backward => b
      let bw := match a.direction with
        | Direction.Forward => b
        | Direction.Backward => a
      let slice_fw := if coin then [UnitigIndex.mk bw.bucket bw.entry] else []
      let slice_bw := if coin then [] else [UnitigIndex.mk fw.bucket fw.entry]
      [(fw.bucket, ⟨fw.entry, UnitigFlags.new_direction true, slice_fw⟩),
       (bw.bucket, ⟨bw.entry, UnitigFlags.new_direction false, slice_bw⟩)]
    else []
  | _ => []

/-! ## Link compaction per group (claims C1, C4, C5, C7),
from src/src/pipeline/links_compaction.rs -/

/-- Outcome of processing one equal-entry group inside links_compaction:
either an assertion failure (the process aborts by panicking), an explicit
process exit with the given code, or the emissions of the group:
finals (pairs of destination bucket and link) appended to the final-unitig
buckets, maps appended to the result-map buckets, links re-emitted into the
next-iteration link buckets, and rem the amount added to rem_links (and hence
to totsum). -/
inductive GroupOutcome where
  | assertFailed : GroupOutcome
  | processExit : Nat → GroupOutcome
  | out : List (Nat × UnitigLink) → List (Nat × LinkMapping) →
      List (Nat × UnitigLink) → Nat → GroupOutcome
deriving DecidableEq, Repr

/-- Lines 374-395 of links_compaction.rs: after a group produced a link pair,
rem_links is incremented; if the first element of the surviving link points
back at the very (bucket, entry) the link is routed to, the code prints an
error and calls exit(0); otherwise both links are dispatched. Indexing an
empty entries slice would panic. -/
def emitLinks (link1 link2 : Nat × UnitigLink) : GroupOutcome :=
  match link1.2.entries.head? with
  | none => GroupOutcome.assertFailed
  | some first =>
    if first.bucket = link1.1 ∧ first.index = link1.2.entry then
      GroupOutcome.processExit 0
    else
      GroupOutcome.out [] [] [link1, link2] 1

/-- Lines 188-198 of links_compaction.rs: pick the non-empty link of the
group, preferring x[0]; none means every link of the group is empty and the
group is skipped (continue) without touching any counter. -/
def selectEntry : List UnitigLink → Option UnitigLink
  | [] => none
  | a :: rest =>
    if a.entries ≠ [] then some a
    else
      match rest with
      | b :: _ => if b.entries ≠ [] then some b else none
      | [] => none

/-- Lines 125-186 of links_compaction.rs: fuse a group of two non-empty links.
Every assert! of the source is modelled as a branch to assertFailed. The order
of operations follows the source: direction assert, flag combination,
swap decision (forced towards the side whose end is sealed, otherwise by the
lazily consumed coin), seal asserts, endpoint extraction from the two slices,
concatenation of the reversed back half, the current entry and the fore half,
and finally the pair emission. -/
def fuseGroup (bucket_index : Nat) (coin : Bool) (a b : UnitigLink) : GroupOutcome :=
  if a.flags.is_forward = b.flags.is_forward then GroupOutcome.assertFailed
  else
    let flags0 := UnitigFlags.combine a.flags b.flags
    if a.flags.end_sealed ≠ flags0.end_sealed then GroupOutcome.assertFailed
    else
      let should_swap := b.flags.end_sealed || (!a.flags.end_sealed && coin)
      let fw := if should_swap then b else a
      let bw := if should_swap then a else b
      let flags := if should_swap then flags0.reversed else flags0
      if fw.flags.end_sealed ≠ flags.end_sealed then GroupOutcome.assertFailed
      else if bw.flags.end_sealed ≠ flags.begin_sealed then GroupOutcome.assertFailed
      else if fw.flags.begin_sealed || bw.flags.begin_sealed then GroupOutcome.assertFailed
      else
        match bw.entries.getLast?, fw.entries.getLast? with
        | some new_entry, some other_entry =>
          let concat := bw.entries.dropLast.reverse ++
            UnitigIndex.mk bucket_index a.entry :: fw.entries
          if !(flags.end_sealed || !flags.begin_sealed) then GroupOutcome.assertFailed
          else
            emitLinks (new_entry.bucket, ⟨new_entry.index, flags, concat⟩)
              (other_entry.bucket, ⟨other_entry.index, UnitigFlags.new_empty, []⟩)
        | _, _ => GroupOutcome.assertFailed

/-- Lines 280-373 of links_compaction.rs: the tail of the non-fused path with
the selected link entry and the current (possibly begin-sealed) flags. A
circular group (routing index equal to the last entry of the path) is written
out as a finished unitig with a result mapping per constituent and nothing
re-emitted; otherwise the link is re-emitted towards the endpoint chosen by
seal state or the coin, together with an empty placeholder to the other side. -/
def reemitOrCircular (bucket_index : Nat) (coin : Bool) (entry : UnitigLink)
    (flags : UnitigFlags) : GroupOutcome :=
  let entries := entry.entries
  let first_entry := UnitigIndex.mk bucket_index entry.entry
  match entries.getLast? with
  | none => GroupOutcome.assertFailed
  | some last_entry =>
    if first_entry = last_entry then
      GroupOutcome.out
        [(bucket_index, ⟨entry.entry, flags, entries⟩)]
        (entries.map (fun l => (l.bucket, LinkMapping.mk bucket_index l.index)))
        [] 0
    else
      let cond := flags.end_sealed || (!flags.begin_sealed && coin)
      let new_entry := if cond then first_entry else last_entry
      let oth_entry := if cond then last_entry else first_entry
      let vec_slice := if cond then entries
        else entries.reverse.drop 1 ++ [first_entry]
      let flags2 := if cond then flags else flags.reversed
      if flags2.begin_sealed && flags2.end_sealed then GroupOutcome.assertFailed
      else if !(flags2.end_sealed || !flags2.begin_sealed) then GroupOutcome.assertFailed
      else
        emitLinks (new_entry.bucket, ⟨new_entry.index, flags2, vec_slice⟩)
          (oth_entry.bucket, ⟨oth_entry.index, UnitigFlags.new_empty, []⟩)

/-- Lines 187-278 of links_compaction.rs: the non-fused path. Select the
non-empty link (or skip the group); a lonely group (size 1) gets its begin
sealed, and when its end was already sealed the whole path is written to the
final-unitig bucket at bucket_index together with a LinkMapping for the entry
itself and one per path element; everything else falls through to the
circular check / re-emission. -/
def nonFuseGroup (bucket_index : Nat) (coin : Bool) (x : List UnitigLink) : GroupOutcome :=
  match selectEntry x with
  | none => GroupOutcome.out [] [] [] 0
  | some entry =>
    let is_lonely := x.length = 1
    if ¬ (is_lonely ∨ (x.headD entry).entries = [] ∨
        ((x.drop 1).headD entry).entries = []) then GroupOutcome.assertFailed
    else if ¬ (entry.flags.begin_sealed = false ∨ is_lonely) then GroupOutcome.assertFailed
    else if is_lonely then
      let flags := entry.flags.seal_beginning
      if flags.end_sealed then
        GroupOutcome.out
          [(bucket_index, ⟨entry.entry, flags, entry.entries⟩)]
          ((bucket_index, LinkMapping.mk bucket_index entry.entry) ::
            entry.entries.map (fun l => (l.bucket, LinkMapping.mk bucket_index l.index)))
          [] 0
      else reemitOrCircular bucket_index coin entry flags
    else reemitOrCircular bucket_index coin entry entry.flags

/-- The body of the group loop of Pipeline::links_compaction for one maximal
equal-entry group x (the radix sort by entry makes group_by yield exactly
these): a group of two non-empty links is fused, everything else takes the
non-fused path. An empty group cannot arise from group_by; indexing it would
panic. -/
def processLinkGroup (bucket_index : Nat) (coin : Bool) (x : List UnitigLink) :
    GroupOutcome :=
  match x with
  | [a, b] =>
    if a.entries ≠ [] ∧ b.entries ≠ [] then fuseGroup bucket_index coin a b
    else nonFuseGroup bucket_index coin [a, b]
  | [] => GroupOutcome.assertFailed
  | _ => nonFuseGroup bucket_index coin x

/-! ## Whole-run driver (claim C6), from src/src/pipeline/links_compaction.rs -/

/-- One input bucket of links_compaction: its groups in sorted order, each
paired with the coin its processing may consume. Folds the group outcomes,
concatenating emissions and summing the rem_links contributions; none when
any group aborts the process. -/
def processBucket (bucket_index : Nat) :
    List (List UnitigLink × Bool) →
    Option (List (Nat × UnitigLink) × List (Nat × LinkMapping) ×
      List (Nat × UnitigLink) × Nat)
  | [] => some ([], [], [], 0)
  | (g, coin) :: rest =>
    match processLinkGroup bucket_index coin g with
    | GroupOutcome.out f m l r =>
      match processBucket bucket_index rest with
      | some (f2, m2, l2, r2) => some (f ++ f2, m ++ m2, l ++ l2, r + r2)
      | none => none
    | _ => none

/-- All input buckets of links_compaction, each tagged with its bucket index
(Utils::get_bucket_index of the file name); totsum accumulates the rem_links
of every bucket, exactly like the relaxed atomic in the source. -/
def processAllBuckets :
    List (Nat × List (List UnitigLink × Bool)) →
    Option (List (Nat × UnitigLink) × List (Nat × LinkMapping) ×
      List (Nat × UnitigLink) × Nat)
  | [] => some ([], [], [], 0)
  | (bi, groups) :: rest =>
    match processBucket bi groups with
    | some (f, m, l, r) =>
      match processAllBuckets rest with
      | some (f2, m2, l2, r2) => some (f ++ f2, m ++ m2, l ++ l2, r + r2)
      | none => none
    | none => none

/-- Pipeline::links_compaction, return value shape: the next-iteration link
buckets always, and the pair (final-unitig buckets, result-map buckets) only
when totsum is zero, else none, exactly the match at the end of the source.
The whole result is none when the run aborts. -/
def links_compaction (inputs : List (Nat × List (List UnitigLink × Bool))) :
    Option (List (Nat × UnitigLink) ×
      Option (List (Nat × UnitigLink) × List (Nat × LinkMapping))) :=
  match processAllBuckets inputs with
  | none => none
  | some (finals, maps, links, totsum) =>
    some (links, match totsum with
      | 0 => some (finals, maps)
      | _ + 1 => none)

/-! ## Theorems for claim C8 -/

theorem decode_encode_varint (n : Nat) (rest : List Nat) :
    decode_varint (encode_varint n ++ rest) = some (n, rest) := by
  induction n using Nat.strong_induction_on with
  | _ n ih =>
    by_cases h : n < 128
    · rw [encode_varint]
      simp [h, decode_varint]
    · rw [encode_varint]
      simp only [h, dite_false, List.cons_append]
      have hrec := ih (n / 128) (Nat.div_lt_self (by omega) (by omega))
      simp only [decode_varint, hrec]
      have hb : ¬ (n % 128 + 128 < 128) := by omega
      simp only [hb, if_false]
      have h1 : n % 128 + 128 + 128 * (n / 128) - 128 = n := by omega
      have h2 : (n % 128 + 128) % 128 + 128 * (n / 128) = n := by omega
      rw [h2]

/-- Claim C8: for every LinkMapping record m, decoding the byte stream produced
by write_to with from_stream yields some mapping whose bucket and entry fields
equal those of m (round-trip of the varint codec for bucket records); stated
with an arbitrary trailing stream, which is also consumed correctly. -/
theorem linkMapping_roundtrip (m : LinkMapping) (rest : List Nat) :
    LinkMapping.from_stream (m.write_to ++ rest) = some (m, rest) := by
  unfold LinkMapping.write_to LinkMapping.from_stream
  rw [List.append_assoc]
  simp only [decode_encode_varint]

/-! ## Theorems for claim C9 -/

theorem bloomFilter_set_getD_self (l : List Nat) (i : Nat) (a d : Nat)
    (h : i < l.length) : (l.set i a).getD i d = a := by
  rw [List.getD_eq_getElem?_getD, List.getElem?_set_eq_of_lt _ h]; rfl

theorem bloomFilter_set_getD_ne (l : List Nat) (i j : Nat) (a d : Nat)
    (h : i ≠ j) : (l.set i a).getD j d = l.getD j d := by
  rw [List.getD_eq_getElem?_getD, List.getD_eq_getElem?_getD, List.getElem?_set_ne h]

theorem bloomFilter_runCalls_length (cells : List Nat) (b : BloomFilter) :
    (b.runCalls cells).map.length = b.map.length := by
  induction cells generalizing b with
  | nil => rfl
  | cons c cs ih =>
    rw [BloomFilter.runCalls, ih]
    simp [BloomFilter.increment_cell]

theorem bloomFilter_runCalls_getD (cells : List Nat) (b : BloomFilter) (cell : Nat)
    (hc : cell < b.map.length) :
    (b.runCalls cells).map.getD cell 0 =
      if cell ∈ cells then 1 else b.map.getD cell 0 := by
  induction cells generalizing b with
  | nil => simp [BloomFilter.runCalls]
  | cons c cs ih =>
    rw [BloomFilter.runCalls]
    rw [ih _ (by simpa [BloomFilter.increment_cell] using hc)]
    by_cases hev : cell ∈ cs
    · simp [hev]
    · by_cases heq : cell = c
      · subst heq
        simp only [BloomFilter.increment_cell, hev, if_false, List.mem_cons,
          true_or, if_true]
        exact bloomFilter_set_getD_self _ _ _ _ hc
      · have hmem : ¬ (cell ∈ c :: cs) := by
          simp [List.mem_cons, heq, hev]
        simp only [BloomFilter.increment_cell, hev, if_false, hmem]
        exact bloomFilter_set_getD_ne _ c cell 1 0 (fun h => heq h.symm)

/-- Claim C9: for a BloomFilter of size n and a cell index below n, after any
sequence of increment_cell calls (all in bounds) starting from a fresh filter,
a further increment_cell on the cell returns true iff the stored byte is 1,
equivalently iff the cell appeared among the previous calls; afterwards the
byte equals 1 (never beyond 1), so the first call on a cell returns false and
every later one returns true. -/
theorem bloomFilter_increment_cell_spec (n : Nat) (cells : List Nat) (cell : Nat)
    (hcell : cell < n) (hcells : ∀ c ∈ cells, c < n) :
    ((((BloomFilter.new n).runCalls cells).increment_cell cell).1 = true ↔
        ((BloomFilter.new n).runCalls cells).map.getD cell 0 = 1)
    ∧ ((((BloomFilter.new n).runCalls cells).increment_cell cell).1 = true ↔
        cell ∈ cells)
    ∧ ((((BloomFilter.new n).runCalls cells).increment_cell cell).2).map.getD cell 0 = 1 := by
  have hlen : ((BloomFilter.new n).runCalls cells).map.length = n := by
    rw [bloomFilter_runCalls_length]
    simp [BloomFilter.new]
  have hbase : (BloomFilter.new n).map.getD cell 0 = 0 := by
    simp only [BloomFilter.new]
    rw [List.getD_eq_getElem?_getD, List.getElem?_replicate]
    simp [hcell]
  have hinv := bloomFilter_runCalls_getD cells (BloomFilter.new n) cell
    (by simpa [BloomFilter.new] using hcell)
  refine ⟨?_, ?_, ?_⟩
  · simp [BloomFilter.increment_cell]
  · rw [BloomFilter.increment_cell]
    simp only [beq_iff_eq]
    rw [hinv, hbase]
    by_cases hmem : cell ∈ cells <;> simp [hmem]
  · simp only [BloomFilter.increment_cell]
    exact bloomFilter_set_getD_self _ _ _ _ (by omega)

theorem bloomFilter_increment_cell_witness :
    (((BloomFilter.new 3).runCalls [1]).increment_cell 1).1 = true ∧
    (((BloomFilter.new 3).runCalls []).increment_cell 2).1 = false := by
  constructor
  · exact (bloomFilter_increment_cell_spec 3 [1] 1 (by decide)
      (by intro c hc; simp at hc; omega)).2.1.mpr (by decide)
  · have h := (bloomFilter_increment_cell_spec 3 [] 2 (by decide)
      (by intro c hc; simp at hc)).2.1
    simp only [List.not_mem_nil, iff_false] at h
    simpa using h

/-! ## Theorems for claim C10 -/

/-- Claim C10: get_id is memoizing and idempotent. A call either returns the
id cached under the SipHash of the slice, or serializes the colors, caches the
id and returns it; two successive calls with the same color slice return the
same id, the second call leaves the map unchanged (hence serialize_colors runs
at most once for that hash key across both calls), and a single call raises the
serialize invocation count by at most one. -/
theorem colorsMemMap_get_id_memoizes {σ : Type} (hashColors : List Nat → Nat)
    (serializeColors : σ → List Nat → Nat × σ) (m : ColorsMemMap σ)
    (colors : List Nat) :
    (∀ i, lookupAssoc m.colors (hashColors colors) = some i →
      ColorsMemMap.get_id hashColors serializeColors m colors = (i, m))
    ∧ (lookupAssoc m.colors (hashColors colors) = none →
      ColorsMemMap.get_id hashColors serializeColors m colors =
        ((serializeColors m.storage colors).1,
         ⟨(hashColors colors, (serializeColors m.storage colors).1) :: m.colors,
          (serializeColors m.storage colors).2, m.serializeCalls + 1⟩))
    ∧ (ColorsMemMap.get_id hashColors serializeColors
        (ColorsMemMap.get_id hashColors serializeColors m colors).2 colors =
       ((ColorsMemMap.get_id hashColors serializeColors m colors).1,
        (ColorsMemMap.get_id hashColors serializeColors m colors).2))
    ∧ (ColorsMemMap.get_id hashColors serializeColors m colors).2.serializeCalls ≤
        m.serializeCalls + 1 := by
  refine ⟨?_, ?_, ?_, ?_⟩
  · intro i hi
    simp [ColorsMemMap.get_id, hi]
  · intro hn
    simp [ColorsMemMap.get_id, hn]
  · rcases hca : lookupAssoc m.colors (hashColors colors) with _ | i
    · simp [ColorsMemMap.get_id, hca, lookupAssoc]
    · simp [ColorsMemMap.get_id, hca]
  · rcases hca : lookupAssoc m.colors (hashColors colors) with _ | i
    · simp [ColorsMemMap.get_id, hca]
    · simp [ColorsMemMap.get_id, hca]

theorem colorsMemMap_get_id_witness :
    ColorsMemMap.get_id (fun _ => 0) (fun s _ => (42, s + 1))
      (⟨[], 0, 0⟩ : ColorsMemMap Nat) [7] = (42, ⟨[(0, 42)], 1, 1⟩) ∧
    ColorsMemMap.get_id (fun _ => 0) (fun s _ => (42, s + 1))
      (⟨[(0, 42)], 1, 1⟩ : ColorsMemMap Nat) [7] = (42, ⟨[(0, 42)], 1, 1⟩) := by
  constructor
  · exact (colorsMemMap_get_id_memoizes (fun _ => 0) (fun s _ => (42, s + 1))
      (⟨[], 0, 0⟩ : ColorsMemMap Nat) [7]).2.1 rfl
  · exact (colorsMemMap_get_id_memoizes (fun _ => 0) (fun s _ => (42, s + 1))
      (⟨[(0, 42)], 1, 1⟩ : ColorsMemMap Nat) [7]).1 42 rfl

/-! ## Theorems for claim C2 -/

theorem pairMin_eq_or (a b : Nat × Nat) : pairMin a b = a ∨ pairMin a b = b := by
  unfold pairMin
  split
  · right; rfl
  · left; rfl

theorem pairMin_fst_le_left (a b : Nat × Nat) : (pairMin a b).1 ≤ a.1 := by
  unfold pairMin
  split
  · rename_i h
    rcases h with h | h
    · omega
    · omega
  · omega

theorem pairMin_fst_le_right (a b : Nat × Nat) : (pairMin a b).1 ≤ b.1 := by
  unfold pairMin
  split
  · omega
  · rename_i h
    push_neg at h
    omega

theorem foldl_pairMin_mem (l : List (Nat × Nat)) (a : Nat × Nat) :
    l.foldl pairMin a = a ∨ l.foldl pairMin a ∈ l := by
  induction l generalizing a with
  | nil => left; rfl
  | cons x xs ih =>
    rw [List.foldl_cons]
    rcases ih (pairMin a x) with h | h
    · rcases pairMin_eq_or a x with h2 | h2
      · left; rw [h, h2]
      · right; rw [h, h2]; exact List.mem_cons_self x xs
    · right; exact List.mem_cons_of_mem x h

theorem foldl_pairMin_le (l : List (Nat × Nat)) (a : Nat × Nat) :
    (l.foldl pairMin a).1 ≤ a.1 ∧ ∀ x ∈ l, (l.foldl pairMin a).1 ≤ x.1 := by
  induction l generalizing a with
  | nil => simp
  | cons x xs ih =>
    rw [List.foldl_cons]
    have h := ih (pairMin a x)
    refine ⟨h.1.trans (pairMin_fst_le_left a x), ?_⟩
    intro y hy
    rcases List.mem_cons.mp hy with h2 | h2
    · subst h2
      exact h.1.trans (pairMin_fst_le_right a y)
    · exact h.2 y h2

theorem listMinPair_spec (l : List (Nat × Nat)) (r : Nat × Nat)
    (h : listMinPair l = some r) : r ∈ l ∧ ∀ x ∈ l, r.1 ≤ x.1 := by
  cases l with
  | nil => simp [listMinPair] at h
  | cons x xs =>
    simp only [listMinPair, Option.some_inj] at h
    subst h
    constructor
    · rcases foldl_pairMin_mem xs x with h | h
      · rw [h]; exact List.mem_cons_self x xs
      · exact List.mem_cons_of_mem x h
    · intro y hy
      rcases List.mem_cons.mp hy with h2 | h2
      · subst h2; exact (foldl_pairMin_le xs y).1
      · exact (foldl_pairMin_le xs x).2 y h2

/-- Claim C2 counterexample. First conjunct: with window hashes 5 and 12 (both
far below every candidate threshold) and 10 buckets, the code picks bucket
12 mod 10 = 2, i.e. the minimum of the pairs (hash mod nbuckets, position),
not h_min mod nbuckets = 5 mod 10 = 5 as the claim states. Second conjunct: a
window hash of 184467440737095518 is accepted although it is not below
floor(u64 MAX / 100) = 184467440737095516, because the threshold constant is
computed in f64 arithmetic and equals 184467440737095520; the claim predicts
None here, the code returns Some. -/
theorem compute_chosen_bucket_counterexample :
    ((5 : Nat) < MINIMIZER_THRESHOLD_VALUE ∧ (12 : Nat) < MINIMIZER_THRESHOLD_VALUE ∧
      compute_chosen_bucket [(5, 0), (12, 1)] 10 = some (2, 1) ∧ (2 : Nat) ≠ 5 % 10)
    ∧ (¬ ((184467440737095518 : Nat) < 184467440737095516) ∧
      compute_chosen_bucket [(184467440737095518, 0)] 10 = some (8, 0)) := by
  refine ⟨⟨by norm_num [MINIMIZER_THRESHOLD_VALUE], by norm_num [MINIMIZER_THRESHOLD_VALUE],
    ?_, by norm_num⟩, by norm_num, ?_⟩
  · rfl
  · rfl

/-- Claim C2 as amended: with the threshold being the f64-computed constant
MINIMIZER_THRESHOLD_VALUE = 184467440737095520, compute_chosen_bucket returns
none when no window hash is strictly below the threshold, and otherwise
returns some pair whose bucket component is the minimum of (h mod nbuckets)
over all window hashes h below the threshold (the minimum of the mapped pairs
under lexicographic order, ties on the bucket broken by earliest position). -/
theorem compute_chosen_bucket_amended (windowHashes : List (Nat × Nat)) (nbuckets : Nat) :
    ((∀ p ∈ windowHashes, ¬ p.1 < MINIMIZER_THRESHOLD_VALUE) →
      compute_chosen_bucket windowHashes nbuckets = none)
    ∧ (∀ q ∈ windowHashes, q.1 < MINIMIZER_THRESHOLD_VALUE →
      ∃ r, compute_chosen_bucket windowHashes nbuckets = some r
        ∧ (∃ p ∈ windowHashes, p.1 < MINIMIZER_THRESHOLD_VALUE ∧ r.1 = p.1 % nbuckets)
        ∧ (∀ p ∈ windowHashes, p.1 < MINIMIZER_THRESHOLD_VALUE →
            r.1 ≤ p.1 % nbuckets)) := by
  constructor
  · intro hall
    have hfil : windowHashes.filter
        (fun v => v.1 < MINIMIZER_THRESHOLD_VALUE) = [] := by
      rw [List.filter_eq_nil_iff]
      intro p hp
      simpa using hall p hp
    rw [compute_chosen_bucket, hfil]
    rfl
  · intro q hq hqlt
    have hqfil : q ∈ windowHashes.filter
        (fun v => v.1 < MINIMIZER_THRESHOLD_VALUE) := by
      rw [List.mem_filter]
      exact ⟨hq, by simpa using hqlt⟩
    have hqmap : (q.1 % nbuckets, q.2) ∈ (windowHashes.filter
        (fun v => v.1 < MINIMIZER_THRESHOLD_VALUE)).map
          (fun b => (b.1 % nbuckets, b.2)) :=
      List.mem_map.mpr ⟨q, hqfil, rfl⟩
    rcases hml : (windowHashes.filter
        (fun v => v.1 < MINIMIZER_THRESHOLD_VALUE)).map
          (fun b => (b.1 % nbuckets, b.2)) with _ | ⟨y, ys⟩
    · rw [hml] at hqmap
      simp at hqmap
    · refine ⟨(ys.foldl pairMin y), ?_, ?_, ?_⟩
      · rw [compute_chosen_bucket, hml]
        rfl
      · have hr : listMinPair (y :: ys) = some (ys.foldl pairMin y) := rfl
        have hmem := (listMinPair_spec _ _ hr).1
        rw [← hml] at hmem
        rcases List.mem_map.mp hmem with ⟨p, hpfil, hpe⟩
        rcases List.mem_filter.mp hpfil with ⟨hpw, hplt⟩
        refine ⟨p, hpw, by simpa using hplt, ?_⟩
        rw [← hpe]
      · intro p hpw hplt
        have hpmap : (p.1 % nbuckets, p.2) ∈ (windowHashes.filter
            (fun v => v.1 < MINIMIZER_THRESHOLD_VALUE)).map
              (fun b => (b.1 % nbuckets, b.2)) :=
          List.mem_map.mpr ⟨p, List.mem_filter.mpr ⟨hpw, by simpa using hplt⟩, rfl⟩
        rw [hml] at hpmap
        have hr : listMinPair (y :: ys) = some (ys.foldl pairMin y) := rfl
        exact (listMinPair_spec _ _ hr).2 _ hpmap

theorem compute_chosen_bucket_amended_witness :
    ∃ r, compute_chosen_bucket [(5, 0), (12, 1)] 10 = some r
      ∧ (∃ p ∈ [((5 : Nat), (0 : Nat)), (12, 1)],
          p.1 < MINIMIZER_THRESHOLD_VALUE ∧ r.1 = p.1 % 10)
      ∧ (∀ p ∈ [((5 : Nat), (0 : Nat)), (12, 1)],
          p.1 < MINIMIZER_THRESHOLD_VALUE → r.1 ≤ p.1 % 10) :=
  (compute_chosen_bucket_amended [(5, 0), (12, 1)] 10).2 (5, 0)
    (by simp) (by norm_num [MINIMIZER_THRESHOLD_VALUE])

/-! ## Theorems for claim C3 -/

/-- Claim C3: for a maximal equal-hash group of exactly 2 entries with opposite
directions, exactly two UnitigLinks are emitted, the forward endpoint first:
one non-empty link whose single entries element is the partner endpoint and
one empty placeholder, each routed to the bucket of its own endpoint with the
is_forward flag matching that endpoint direction, the coin deciding which side
carries the payload; every other group (other sizes, or equal directions)
emits nothing. -/
theorem hashesSorting_group_spec (coin : Bool) (x : List HashEntry) :
    (∀ a b, x = [a, b] → a.direction ≠ b.direction →
      ∃ fw bw,
        ((a.direction = Direction.Forward ∧ fw = a ∧ bw = b) ∨
         (a.direction = Direction.Backward ∧ fw = b ∧ bw = a))
        ∧ processHashGroup coin x =
          (if coin then
            [(fw.bucket, ⟨fw.entry, UnitigFlags.new_direction true,
                [UnitigIndex.mk bw.bucket bw.entry]⟩),
             (bw.bucket, ⟨bw.entry, UnitigFlags.new_direction false, []⟩)]
          else
            [(fw.bucket, ⟨fw.entry, UnitigFlags.new_direction true, []⟩),
             (bw.bucket, ⟨bw.entry, UnitigFlags.new_direction false,
                [UnitigIndex.mk fw.bucket fw.entry]⟩)]))
    ∧ (∀ a b, x = [a, b] → a.direction = b.direction → processHashGroup coin x = [])
    ∧ (x.length ≠ 2 → processHashGroup coin x = []) := by
  refine ⟨?_, ?_, ?_⟩
  · intro a b hx hne
    subst hx
    cases hd : a.direction with
    | Forward =>
      rw [hd] at hne
      refine ⟨a, b, Or.inl ⟨rfl, rfl, rfl⟩, ?_⟩
      cases coin <;> simp [processHashGroup, hne, hd]
    | Backward =>
      rw [hd] at hne
      refine ⟨b, a, Or.inr ⟨rfl, rfl, rfl⟩, ?_⟩
      cases coin <;> simp [processHashGroup, hne, hd]
  · intro a b hx heq
    subst hx
    simp [processHashGroup, heq]
  · intro hlen
    match x with
    | [] => rfl
    | [a] => rfl
    | [a, b] => exact absurd rfl hlen
    | a :: b :: c :: t => rfl

theorem hashesSorting_group_witness :
    processHashGroup true
      [⟨10, 0, 1, Direction.Forward⟩, ⟨10, 2, 3, Direction.Backward⟩] =
      [(0, ⟨1, UnitigFlags.new_direction true, [UnitigIndex.mk 2 3]⟩),
       (2, ⟨3, UnitigFlags.new_direction false, []⟩)] := by
  obtain ⟨fw, bw, hcase, heq⟩ := (hashesSorting_group_spec true _).1
    ⟨10, 0, 1, Direction.Forward⟩ ⟨10, 2, 3, Direction.Backward⟩ rfl (by decide)
  rcases hcase with ⟨_, hfw, hbw⟩ | ⟨hdir, _, _⟩
  · subst hfw
    subst hbw
    simpa using heq
  · exact absurd hdir (by decide)

/-! ## Theorems for claim C1 -/

/-- Claim C1 counterexample: a group of size 2 where exactly one link has
non-empty entries is NOT sealed by the code (seal_beginning runs only for
lonely groups). Here the non-empty link has an unsealed begin and a sealed
end; the claim predicts the begin gets sealed and, the end being sealed, the
whole path gets written to the final-unitig bucket with result mappings. The
code instead re-emits the link unchanged: the outcome carries no finals, no
mappings, and a surviving link whose begin flag is still false. -/
theorem linksCompaction_sizeTwo_notSealed_counterexample :
    processLinkGroup 0 true
      [⟨5, ⟨true, false, true⟩, [⟨1, 7⟩]⟩, ⟨5, ⟨false, false, false⟩, []⟩] =
      GroupOutcome.out [] []
        [(0, ⟨5, ⟨true, false, true⟩, [⟨1, 7⟩]⟩),
         (1, ⟨7, ⟨false, false, false⟩, []⟩)] 1
    ∧ (⟨true, false, true⟩ : UnitigFlags).begin_sealed = false := by decide

/-- Claim C1 as amended: only for a lonely group (size 1, non-empty link) is
the begin flag sealed; when additionally its end flag was already sealed the
whole path is written to the final-unitig bucket and a LinkMapping to the
current bucket is emitted for the group entry and for every UnitigIndex of the
path, with nothing re-emitted. Size-2 groups with exactly one non-empty link
take the re-emission path with flags unchanged. -/
theorem linksCompaction_lonely_seals (bi : Nat) (coin : Bool) (a : UnitigLink)
    (hne : a.entries ≠ []) (hes : a.flags.end_sealed = true) :
    processLinkGroup bi coin [a] =
      GroupOutcome.out
        [(bi, ⟨a.entry, a.flags.seal_beginning, a.entries⟩)]
        ((bi, LinkMapping.mk bi a.entry) ::
          a.entries.map (fun l => (l.bucket, LinkMapping.mk bi l.index)))
        [] 0
    ∧ (a.flags.seal_beginning).begin_sealed = true := by
  constructor
  · simp [processLinkGroup, nonFuseGroup, selectEntry, hne,
      UnitigFlags.seal_beginning, hes]
  · simp [UnitigFlags.seal_beginning]

theorem linksCompaction_lonely_seals_witness :
    processLinkGroup 0 false [⟨5, ⟨true, false, true⟩, [⟨1, 7⟩]⟩] =
      GroupOutcome.out [(0, ⟨5, ⟨true, true, true⟩, [⟨1, 7⟩]⟩)]
        [(0, ⟨0, 5⟩), (1, ⟨0, 7⟩)] [] 0 := by
  have h := (linksCompaction_lonely_seals 0 false ⟨5, ⟨true, false, true⟩, [⟨1, 7⟩]⟩
    (by decide) (by decide)).1
  simpa [UnitigFlags.seal_beginning] using h

/-! ## Theorems for claim C7 -/

/-- Claim C7 counterexample: a size-2 group whose surviving link has its first
entries element equal to its own routing (bucket 0, entry 5) while the last
element differs (so it is not detected as circular). The code does abort, but
through exit(0): the process terminates with exit code 0, not with the
internal-assertion exit code 3 stated by the claim. -/
theorem linksCompaction_selfLink_exit_counterexample :
    processLinkGroup 0 true
      [⟨5, ⟨true, false, true⟩, [⟨0, 5⟩, ⟨1, 7⟩]⟩, ⟨5, ⟨false, false, false⟩, []⟩] =
      GroupOutcome.processExit 0
    ∧ (0 : Nat) ≠ 3 := by decide

/-- Claim C7 as amended: whenever links_compaction produces a link whose first
entries element has the same bucket and index as the link routing (bucket,
entry) without having been detected as circular, the implementation detects
this at the emission point and aborts the process — but via exit(0), so the
process terminates with exit code 0, not with the documented
internal-assertion exit code 3. -/
theorem linksCompaction_selfLink_exits (link1 link2 : Nat × UnitigLink)
    (first : UnitigIndex)
    (hhead : link1.2.entries.head? = some first)
    (hb : first.bucket = link1.1) (hi : first.index = link1.2.entry) :
    emitLinks link1 link2 = GroupOutcome.processExit 0 := by
  simp [emitLinks, hhead, hb, hi]

theorem linksCompaction_selfLink_exits_witness :
    emitLinks (0, ⟨5, ⟨true, false, true⟩, [⟨0, 5⟩, ⟨1, 7⟩]⟩)
      (1, ⟨7, ⟨false, false, false⟩, []⟩) = GroupOutcome.processExit 0 :=
  linksCompaction_selfLink_exits _ _ ⟨0, 5⟩ rfl rfl rfl

/-! ## Theorems for claim C5 -/

/-- Claim C5: a surviving non-fused group (non-empty selected link, assertion
conditions met, not already finished as a lonely sealed-end unitig) whose
routing UnitigIndex (bucket_index, entry) equals the last UnitigIndex of its
entries list is finalized as a closed unitig: the link is written to the
final-unitig bucket, a LinkMapping to the current bucket is emitted for every
constituent UnitigIndex of its entries, and nothing is re-emitted into the
next-iteration link buckets (and rem_links is not incremented). -/
theorem linksCompaction_circular_finalizes (bi : Nat) (coin : Bool)
    (x : List UnitigLink) (a : UnitigLink)
    (hsel : selectEntry x = some a)
    (hassert1 : x.length = 1 ∨ (x.headD a).entries = [] ∨
      ((x.drop 1).headD a).entries = [])
    (hassert2 : a.flags.begin_sealed = false ∨ x.length = 1)
    (hnotfin : x.length = 1 → a.flags.end_sealed = false)
    (hcirc : a.entries.getLast? = some (UnitigIndex.mk bi a.entry)) :
    processLinkGroup bi coin x =
      GroupOutcome.out
        [(bi, ⟨a.entry, (if x.length = 1 then a.flags.seal_beginning else a.flags),
          a.entries⟩)]
        (a.entries.map (fun l => (l.bucket, LinkMapping.mk bi l.index)))
        [] 0 := by
  have hdisp : processLinkGroup bi coin x = nonFuseGroup bi coin x := by
    match x with
    | [] => simp [selectEntry] at hsel
    | [a0] => rfl
    | [a0, b0] =>
      rcases hassert1 with h | h | h
      · simp at h
      · simp only [List.headD_cons] at h
        simp [processLinkGroup, h]
      · simp only [List.drop_succ_cons, List.drop_zero, List.headD_cons] at h
        simp [processLinkGroup, h]
    | a0 :: b0 :: c0 :: t => rfl
  rw [hdisp]
  rw [nonFuseGroup]
  rw [hsel]
  simp only []
  rw [if_neg (not_not_intro hassert1)]
  rw [if_neg (not_not_intro hassert2)]
  by_cases hl : x.length = 1
  · rw [if_pos hl, if_pos hl]
    have hend : (a.flags.seal_beginning).end_sealed = false := by
      simp [UnitigFlags.seal_beginning, hnotfin hl]
    rw [if_neg (by simp [hend])]
    rw [reemitOrCircular]
    simp only [hcirc, if_true]
  · rw [if_neg hl, if_neg hl]
    rw [reemitOrCircular]
    simp only [hcirc, if_true]

theorem linksCompaction_circular_finalizes_witness :
    processLinkGroup 0 true [⟨5, ⟨true, false, false⟩, [⟨1, 2⟩, ⟨0, 5⟩]⟩] =
      GroupOutcome.out [(0, ⟨5, ⟨true, true, false⟩, [⟨1, 2⟩, ⟨0, 5⟩]⟩)]
        [(1, ⟨0, 2⟩), (0, ⟨0, 5⟩)] [] 0 := by
  have h := linksCompaction_circular_finalizes 0 true
    [⟨5, ⟨true, false, false⟩, [⟨1, 2⟩, ⟨0, 5⟩]⟩] ⟨5, ⟨true, false, false⟩, [⟨1, 2⟩, ⟨0, 5⟩]⟩
    rfl (Or.inl rfl) (Or.inr rfl) (fun _ => rfl) rfl
  simpa [UnitigFlags.seal_beginning] using h

/-! ## Theorems for claim C6 -/

/-- Claim C6: links_compaction returns a some second component, carrying the
final-unitig buckets and the result-map buckets, exactly when totsum — the
total rem_links count accumulated over all input buckets — is zero; otherwise
the second component is none and the fixed-point loop must iterate again. -/
theorem linksCompaction_returns_iff_totsum_zero
    (inputs : List (Nat × List (List UnitigLink × Bool)))
    (finals : List (Nat × UnitigLink)) (maps : List (Nat × LinkMapping))
    (links : List (Nat × UnitigLink)) (totsum : Nat)
    (h : processAllBuckets inputs = some (finals, maps, links, totsum)) :
    ∃ ret, links_compaction inputs = some ret
      ∧ ret.1 = links
      ∧ (ret.2.isSome ↔ totsum = 0)
      ∧ (totsum = 0 → ret.2 = some (finals, maps)) := by
  refine ⟨(links, if totsum = 0 then some (finals, maps) else none), ?_, rfl, ?_, ?_⟩
  · simp only [links_compaction, h]
    cases totsum with
    | zero => simp
    | succ n => simp
  · cases totsum <;> simp
  · intro ht
    subst ht
    simp

theorem linksCompaction_returns_iff_totsum_zero_witness :
    ∃ ret, links_compaction [(0, [([⟨5, ⟨true, false, true⟩, [⟨1, 7⟩]⟩], true)])] =
        some ret
      ∧ ret.1 = []
      ∧ (ret.2.isSome ↔ (0 : Nat) = 0)
      ∧ ((0 : Nat) = 0 → ret.2 =
          some ([(0, ⟨5, ⟨true, true, true⟩, [⟨1, 7⟩]⟩)],
            [(0, ⟨0, 5⟩), (1, ⟨0, 7⟩)])) :=
  linksCompaction_returns_iff_totsum_zero _ _ _ _ 0 (by decide)

/-! ## Theorems for claim C4 -/

theorem emitLinks_out (l1 l2 : Nat × UnitigLink)
    (hne : l1.2.entries ≠ [])
    (hnf : l1.2.entries.head? ≠ some (UnitigIndex.mk l1.1 l1.2.entry)) :
    emitLinks l1 l2 = GroupOutcome.out [] [] [l1, l2] 1 := by
  rcases hh : l1.2.entries.head? with _ | first
  · exact absurd (List.head?_eq_none_iff.mp hh) hne
  · rw [emitLinks, hh]
    simp only []
    rw [if_neg]
    rintro ⟨h1, h2⟩
    apply hnf
    rw [hh]
    cases first
    simp only [] at h1 h2
    rw [h1, h2]

theorem fuseGroup_swap (bi : Nat) (coin : Bool) (a b : UnitigLink)
    (la lb : UnitigIndex)
    (hla : a.entries.getLast? = some la) (hlb : b.entries.getLast? = some lb)
    (hopp : a.flags.is_forward ≠ b.flags.is_forward)
    (hba : a.flags.begin_sealed = false) (hbb : b.flags.begin_sealed = false)
    (hsw : (b.flags.end_sealed || (!a.flags.end_sealed && coin)) = true)
    (hnoexit : (a.entries.dropLast.reverse ++
        UnitigIndex.mk bi a.entry :: b.entries).head? ≠
      some (UnitigIndex.mk la.bucket la.index)) :
    fuseGroup bi coin a b =
      GroupOutcome.out [] []
        [(la.bucket, ⟨la.index, (UnitigFlags.combine a.flags b.flags).reversed,
           a.entries.dropLast.reverse ++ UnitigIndex.mk bi a.entry :: b.entries⟩),
         (lb.bucket, ⟨lb.index, UnitigFlags.new_empty, []⟩)] 1 := by
  have h9 : (b.flags.end_sealed || !a.flags.end_sealed) = true := by
    cases hbe : b.flags.end_sealed <;> cases hae : a.flags.end_sealed <;> simp_all
  rw [fuseGroup, if_neg hopp]
  rw [if_neg (by simp [UnitigFlags.combine])]
  simp only [hsw, if_true]
  rw [if_neg (by simp [UnitigFlags.combine, UnitigFlags.reversed])]
  rw [if_neg (by simp [UnitigFlags.combine, UnitigFlags.reversed])]
  rw [if_neg (by simp [hba, hbb])]
  rw [hla, hlb]
  simp only []
  rw [if_neg (by simp [UnitigFlags.combine, UnitigFlags.reversed, h9])]
  exact emitLinks_out _ _ (by simp) hnoexit

theorem fuseGroup_noswap (bi : Nat) (coin : Bool) (a b : UnitigLink)
    (la lb : UnitigIndex)
    (hla : a.entries.getLast? = some la) (hlb : b.entries.getLast? = some lb)
    (hopp : a.flags.is_forward ≠ b.flags.is_forward)
    (hba : a.flags.begin_sealed = false) (hbb : b.flags.begin_sealed = false)
    (hsw : (b.flags.end_sealed || (!a.flags.end_sealed && coin)) = false)
    (hnoexit : (b.entries.dropLast.reverse ++
        UnitigIndex.mk bi a.entry :: a.entries).head? ≠
      some (UnitigIndex.mk lb.bucket lb.index)) :
    fuseGroup bi coin a b =
      GroupOutcome.out [] []
        [(lb.bucket, ⟨lb.index, UnitigFlags.combine a.flags b.flags,
           b.entries.dropLast.reverse ++ UnitigIndex.mk bi a.entry :: a.entries⟩),
         (la.bucket, ⟨la.index, UnitigFlags.new_empty, []⟩)] 1 := by
  have h9 : (a.flags.end_sealed || !b.flags.end_sealed) = true := by
    cases hbe : b.flags.end_sealed <;> cases hae : a.flags.end_sealed <;> simp_all
  rw [fuseGroup, if_neg hopp]
  rw [if_neg (by simp [UnitigFlags.combine])]
  simp only [hsw, Bool.false_eq_true, if_false]
  rw [if_neg (by simp [UnitigFlags.combine])]
  rw [if_neg (by simp [UnitigFlags.combine])]
  rw [if_neg (by simp [hba, hbb])]
  rw [hlb, hla]
  simp only []
  rw [if_neg (by simp [UnitigFlags.combine, h9])]
  exact emitLinks_out _ _ (by simp) hnoexit

/-- Claim C4: for a group of exactly two non-empty links with opposite
is_forward flags (and the begin seals unset, as the source asserts), the fused
link carries UnitigFlags.combine of the two, reversed when the swap is taken:
the result is end-sealed iff the forward-contributing side had its end sealed
and begin-sealed iff the backward side had its end sealed. The new entry
endpoint is the last element of the side opposite the end-sealed one when
exactly one side is end-sealed, and is chosen by the coin when neither is; one
non-empty link is emitted to the new endpoint bucket and one empty placeholder
to the other endpoint bucket, with rem_links incremented once. The final
hypothesis excludes the separately specified self-link abort. -/
theorem linksCompaction_fuse_spec (bi : Nat) (coin : Bool) (a b : UnitigLink)
    (la lb : UnitigIndex)
    (hla : a.entries.getLast? = some la) (hlb : b.entries.getLast? = some lb)
    (hopp : a.flags.is_forward ≠ b.flags.is_forward)
    (hba : a.flags.begin_sealed = false) (hbb : b.flags.begin_sealed = false) :
    ∀ should_swap fl new_e oth_e concat,
      should_swap = (b.flags.end_sealed || (!a.flags.end_sealed && coin)) →
      fl = (if should_swap then (UnitigFlags.combine a.flags b.flags).reversed
            else UnitigFlags.combine a.flags b.flags) →
      new_e = (if should_swap then la else lb) →
      oth_e = (if should_swap then lb else la) →
      concat = (if should_swap
        then a.entries.dropLast.reverse ++ UnitigIndex.mk bi a.entry :: b.entries
        else b.entries.dropLast.reverse ++ UnitigIndex.mk bi a.entry :: a.entries) →
      concat.head? ≠ some (UnitigIndex.mk new_e.bucket new_e.index) →
      (processLinkGroup bi coin [a, b] =
        GroupOutcome.out [] []
          [(new_e.bucket, ⟨new_e.index, fl, concat⟩),
           (oth_e.bucket, ⟨oth_e.index, UnitigFlags.new_empty, []⟩)] 1
       ∧ fl.end_sealed = (if should_swap then b.flags else a.flags).end_sealed
       ∧ fl.begin_sealed = (if should_swap then a.flags else b.flags).end_sealed
       ∧ (b.flags.end_sealed = true → should_swap = true)
       ∧ (a.flags.end_sealed = true → b.flags.end_sealed = false →
            should_swap = false)
       ∧ (a.flags.end_sealed = false → b.flags.end_sealed = false →
            should_swap = coin)
       ∧ concat ≠ []) := by
  intro should_swap fl new_e oth_e concat hsw hfl hnew hoth hconcat hnoexit
  subst hsw
  subst hfl
  subst hnew
  subst hoth
  subst hconcat
  have hane : a.entries ≠ [] := by
    intro h
    rw [h] at hla
    simp at hla
  have hbne : b.entries ≠ [] := by
    intro h
    rw [h] at hlb
    simp at hlb
  refine ⟨?_, ?_, ?_, ?_, ?_, ?_, ?_⟩
  · simp only [processLinkGroup]
    rw [if_pos (And.intro hane hbne)]
    by_cases hswv : (b.flags.end_sealed || (!a.flags.end_sealed && coin)) = true
    · simp only [hswv, if_true] at hnoexit ⊢
      exact fuseGroup_swap bi coin a b la lb hla hlb hopp hba hbb hswv hnoexit
    · have hswf : (b.flags.end_sealed || (!a.flags.end_sealed && coin)) = false := by
        simpa using hswv
      simp only [hswf, Bool.false_eq_true, if_false] at hnoexit ⊢
      exact fuseGroup_noswap bi coin a b la lb hla hlb hopp hba hbb hswf hnoexit
  · by_cases hswv : (b.flags.end_sealed || (!a.flags.end_sealed && coin)) = true <;>
      simp [hswv, UnitigFlags.combine, UnitigFlags.reversed]
  · by_cases hswv : (b.flags.end_sealed || (!a.flags.end_sealed && coin)) = true <;>
      simp [hswv, UnitigFlags.combine, UnitigFlags.reversed]
  · intro hbe
    simp [hbe]
  · intro hae hbe
    simp [hae, hbe]
  · intro hae hbe
    simp [hae, hbe]
  · by_cases hswv : (b.flags.end_sealed || (!a.flags.end_sealed && coin)) = true <;>
      simp [hswv]

theorem linksCompaction_fuse_spec_witness :
    processLinkGroup 0 true
      [⟨5, ⟨true, false, false⟩, [⟨1, 2⟩]⟩, ⟨5, ⟨false, false, false⟩, [⟨3, 4⟩]⟩] =
      GroupOutcome.out [] []
        [(1, ⟨2, ⟨false, false, false⟩, [⟨0, 5⟩, ⟨3, 4⟩]⟩),
         (3, ⟨4, ⟨false, false, false⟩, []⟩)] 1 := by
  have h := (linksCompaction_fuse_spec 0 true
    ⟨5, ⟨true, false, false⟩, [⟨1, 2⟩]⟩ ⟨5, ⟨false, false, false⟩, [⟨3, 4⟩]⟩
    ⟨1, 2⟩ ⟨3, 4⟩ rfl rfl (by decide) rfl rfl
    _ _ _ _ _ rfl rfl rfl rfl rfl (by decide)).1
  simpa using h
